import Mathlib

/-!
Verification of the k-permutation unranking core of `mnemonic-search`.

The TypeScript source (three functions) is shallowly embedded:

* `permutationCountBig (n k)` — the exact permutation counter `P(n,k)`.
  JS `BigInt` is embedded as `ℤ`; the loop `for (i = 0; i < k; i++)
  result *= BigInt(n - i)` is a left fold over `List.range k`.
* `getLargeKPermutationAtIndex` — the dense unranking engine.  The
  `for` loop of the source becomes the structurally recursive
  `denseLoop`, whose `fuel` argument counts the remaining iterations
  (`fuel = k - i` for the loop counter `i`).
* `getKPermutationForLargeDataset` — the lazy engine.  A JS `Set`
  iterates in insertion order; the source inserts `0, …, n-1` in
  ascending order and `Set.delete` preserves the order of the
  survivors, so the working set is embedded as a sorted `List ℕ`
  (initially `List.range n`) and `delete` as `List.erase`.  The inner
  `for…of` scan that counts up to `position` is exactly `List.get?`.

JS `BigInt` division/remainder truncate toward zero, which is
`Int.tdiv` / `Int.tmod`.  `Number(index / blockSize)` followed by an
array access is embedded as `Int.toNat` followed by `List.get?`;
an out-of-bounds access (which in JS would produce `undefined`) is
surfaced as the distinguished outcome `PermError.undefinedRead` in the
dense engine, and the source's explicit `Algorithm error` throw as
`PermError.algorithmError` in the lazy engine.  Thrown `Error`s are
embedded as `Except.error`; the error payloads keep the data that the
source interpolates into each message.
-/

/-- The errors thrown by the two unranking engines.  `arity` is
`k (…) cannot be greater than n (…)`, `range` is
`Index … is out of bounds (0 to …)` (carrying the reported upper bound
`totalPermutations - 1`), `algorithmError` is the lazy engine's
`Algorithm error: could not find element at position …`, and
`undefinedRead` marks the dense engine reading past the end of its
working array (JS would silently produce `undefined`). -/
inductive PermError where
  | arity (k n : ℕ)
  | range (index upperBound : ℤ)
  | algorithmError (position : ℕ)
  | undefinedRead (position : ℕ)
deriving DecidableEq, Repr

/-- `permutationCountBig(n, k)` from the source:
`if (k > n) return 0n; if (k === 0) return 1n;` then
`for (i = 0; i < k; i++) result *= BigInt(n - i)`. -/
def permutationCountBig (n k : ℕ) : ℤ :=
  if k > n then 0
  else if k = 0 then 1
  else (List.range k).foldl (fun (result : ℤ) (i : ℕ) => result * ((n : ℤ) - (i : ℤ))) 1

/-- The selection loop of `getLargeKPermutationAtIndex`
(`for (let i = 0; i < k; i++) { … }`).  `fuel = k - i` is the number of
iterations still to run; the loop body computes
`blockSize = permutationCountBig(n - i - 1, k - i - 1)`,
`position = Number(index / blockSize)`, `index = index % blockSize`,
reads `availableElements[position]` and `splice`s it out. -/
def denseLoop {T : Type} (n k : ℕ) : ℕ → ℕ → ℤ → List T → Except PermError (List T)
  | _, 0, _, _ => Except.ok []
  | i, fuel + 1, index, availableElements =>
    let blockSize := permutationCountBig (n - i - 1) (k - i - 1)
    let position := (Int.tdiv index blockSize).toNat
    match availableElements.get? position with
    | none => Except.error (PermError.undefinedRead position)
    | some x =>
      (denseLoop n k (i + 1) fuel (Int.tmod index blockSize)
        (availableElements.eraseIdx position)).map (fun rest => x :: rest)

/-- `getLargeKPermutationAtIndex(elements, k, indexStr)` from the source.
The decimal string `indexStr` is embedded as the integer it denotes. -/
def getLargeKPermutationAtIndex {T : Type} (elements : List T) (k : ℕ) (index : ℤ) :
    Except PermError (List T) :=
  let n := elements.length
  if k > n then Except.error (PermError.arity k n)
  else
    let totalPermutations := permutationCountBig n k
    if index < 0 ∨ index ≥ totalPermutations then
      Except.error (PermError.range index (totalPermutations - 1))
    else
      denseLoop n k 0 k index elements

/-- The selection loop of `getKPermutationForLargeDataset`.  The working
set of surviving identities is the ascending list `availableIndices`;
the source's linear scan counting `currentPos` up to `position` is
`List.get? position`, the `selectedIndex === undefined` branch is the
`Algorithm error` throw, and `availableIndices.delete(selectedIndex)`
is `List.erase`. -/
def lazyLoop {T : Type} (getElementFn : ℕ → T) (n k : ℕ) :
    ℕ → ℕ → ℤ → List ℕ → Except PermError (List T)
  | _, 0, _, _ => Except.ok []
  | i, fuel + 1, index, availableIndices =>
    let blockSize := permutationCountBig (n - i - 1) (k - i - 1)
    let position := (Int.tdiv index blockSize).toNat
    match availableIndices.get? position with
    | none => Except.error (PermError.algorithmError position)
    | some selectedIndex =>
      (lazyLoop getElementFn n k (i + 1) fuel (Int.tmod index blockSize)
        (availableIndices.erase selectedIndex)).map
        (fun rest => getElementFn selectedIndex :: rest)

/-- `getKPermutationForLargeDataset(getElementFn, n, k, indexStr)` from
the source.  `availableIndices` starts as the identities `0 … n-1` in
ascending (insertion) order, i.e. `List.range n`. -/
def getKPermutationForLargeDataset {T : Type} (getElementFn : ℕ → T) (n k : ℕ) (index : ℤ) :
    Except PermError (List T) :=
  if k > n then Except.error (PermError.arity k n)
  else
    let totalPermutations := permutationCountBig n k
    if index < 0 ∨ index ≥ totalPermutations then
      Except.error (PermError.range index (totalPermutations - 1))
    else
      lazyLoop getElementFn n k 0 k index (List.range n)

/-- Heap model of one call to the dense engine, for the frame property:
`elements` is the caller's array, `availableElements` the per-call
working copy made by `[...elements]`, `result` the output array under
construction (a JS array slot holds a value or `undefined`, hence
`Option T`), and `index` the mutable loop variable. -/
structure DenseState (T : Type) where
  elements : List T
  availableElements : List T
  result : List (Option T)
  index : ℤ
deriving Repr

/-- One iteration of the dense engine's `for` loop (source lines 72–85)
acting on the heap model: only `availableElements`, `result` and
`index` are touched; the body never references `elements`. -/
def denseIter {T : Type} (n k i : ℕ) (s : DenseState T) : DenseState T :=
  let blockSize := permutationCountBig (n - i - 1) (k - i - 1)
  let position := (Int.tdiv s.index blockSize).toNat
  { elements := s.elements
    availableElements := s.availableElements.eraseIdx position
    result := s.result ++ [s.availableElements.get? position]
    index := Int.tmod s.index blockSize }

/-- Runs `fuel` consecutive iterations of the dense loop on the heap
model, starting at loop counter `i`. -/
def denseRunLoop {T : Type} (n k : ℕ) : ℕ → ℕ → DenseState T → DenseState T
  | _, 0, s => s
  | i, fuel + 1, s => denseRunLoop n k (i + 1) fuel (denseIter n k i s)

/-- The dense engine on the heap model.  The second component is the
caller's `elements` array as observable after the call returns or
throws; on either thrown error the call aborts before the working copy
is created, so no state is built at all. -/
def denseRun {T : Type} (elements : List T) (k : ℕ) (index : ℤ) :
    Except PermError (List (Option T)) × List T :=
  let n := elements.length
  if k > n then (Except.error (PermError.arity k n), elements)
  else
    let totalPermutations := permutationCountBig n k
    if index < 0 ∨ index ≥ totalPermutations then
      (Except.error (PermError.range index (totalPermutations - 1)), elements)
    else
      let final := denseRunLoop n k 0 k
        { elements := elements, availableElements := elements, result := [], index := index }
      (Except.ok final.result, final.elements)

/-- Mathematical form of the shared selection loop, over `ℕ` indices:
select the `idx / blockSize`-th element of the pool, remove it, recurse
on `idx % blockSize`.  (Out-of-range reads return the unreachable junk
value `[]`; all theorems below assume `idx < descFactorial`.) -/
def unrankNat {T : Type} : List T → ℕ → ℕ → List T
  | _, 0, _ => []
  | a, j + 1, idx =>
    let b := (a.length - 1).descFactorial j
    match a.get? (idx / b) with
    | none => []
    | some x => x :: unrankNat (a.eraseIdx (idx / b)) j (idx % b)

/-- Rank of a selection `L` drawn from the pool `a`: the inverse of
`unrankNat`, used to prove bijectivity. -/
def rankNat {T : Type} [DecidableEq T] : List T → List T → ℕ
  | _, [] => 0
  | a, x :: L => a.indexOf x * ((a.length - 1).descFactorial L.length) + rankNat (a.erase x) L

/-! ### Arithmetic bridge: `permutationCountBig` is the descending factorial -/

theorem permCount_foldl (n : ℕ) :
    ∀ (k : ℕ) (c : ℤ),
      (List.range k).foldl (fun (result : ℤ) (i : ℕ) => result * ((n : ℤ) - (i : ℤ))) c =
        c * ∏ j ∈ Finset.range k, ((n : ℤ) - (j : ℤ)) := by
  intro k
  induction k with
  | zero => simp
  | succ k ih =>
    intro c
    rw [List.range_succ, List.foldl_append, Finset.prod_range_succ]
    simp only [List.foldl_cons, List.foldl_nil, ih]
    ring

theorem prod_range_cast_sub (n k : ℕ) (hk : k ≤ n) :
    ∏ j ∈ Finset.range k, ((n : ℤ) - (j : ℤ)) = (n.descFactorial k : ℤ) := by
  rw [Nat.descFactorial_eq_prod_range, Nat.cast_prod]
  apply Finset.prod_congr rfl
  intro j hj
  have : j ≤ n := le_trans (le_of_lt (Finset.mem_range.mp hj)) hk
  rw [Nat.cast_sub this]

theorem permutationCountBig_eq_descFactorial (n k : ℕ) :
    permutationCountBig n k = (n.descFactorial k : ℤ) := by
  unfold permutationCountBig
  by_cases h : k > n
  · rw [if_pos h, Nat.descFactorial_eq_zero_iff_lt.mpr h, Nat.cast_zero]
  · rw [if_neg h]
    by_cases h0 : k = 0
    · subst h0; simp
    · rw [if_neg h0, permCount_foldl, one_mul, prod_range_cast_sub n k (le_of_not_lt h)]

theorem descFactorial_pos {n k : ℕ} (h : k ≤ n) : 0 < n.descFactorial k :=
  Nat.pos_of_ne_zero fun h0 =>
    absurd (Nat.descFactorial_eq_zero_iff_lt.mp h0) (not_lt.mpr h)

/-! ### List helpers -/

theorem perm_cons_eraseIdx {T : Type} (a : List T) (p : ℕ) (hp : p < a.length) :
    a.Perm (a.get ⟨p, hp⟩ :: a.eraseIdx p) := by
  rw [List.eraseIdx_eq_take_drop_succ]
  conv_lhs => rw [← List.take_append_drop p a, List.drop_eq_getElem_cons hp]
  exact List.perm_middle

theorem cons_subperm_of_subperm_eraseIdx {T : Type} {a L : List T} {p : ℕ}
    (hp : p < a.length) (hL : L.Subperm (a.eraseIdx p)) :
    (a.get ⟨p, hp⟩ :: L).Subperm a := by
  obtain ⟨w, hw, hsub⟩ := hL
  have h1 : (a.get ⟨p, hp⟩ :: L).Subperm (a.get ⟨p, hp⟩ :: a.eraseIdx p) :=
    ⟨a.get ⟨p, hp⟩ :: w, hw.cons _, hsub.cons₂ _⟩
  exact h1.trans (perm_cons_eraseIdx a p hp).symm.subperm

theorem unrankNat_step {T : Type} (a : List T) (j idx : ℕ)
    (hp : idx / (a.length - 1).descFactorial j < a.length) :
    unrankNat a (j + 1) idx =
      a.get ⟨idx / (a.length - 1).descFactorial j, hp⟩ ::
        unrankNat (a.eraseIdx (idx / (a.length - 1).descFactorial j)) j
          (idx % (a.length - 1).descFactorial j) := by
  simp only [unrankNat, List.get?_eq_getElem?, List.getElem?_eq_getElem hp]
  rfl

theorem unrankNat_length_subperm {T : Type} :
    ∀ (j : ℕ) (a : List T) (idx : ℕ), j ≤ a.length → idx < a.length.descFactorial j →
      (unrankNat a j idx).length = j ∧ (unrankNat a j idx).Subperm a := by
  intro j
  induction j with
  | zero =>
    intro a idx _ _
    exact ⟨rfl, List.nil_subperm⟩
  | succ j ih =>
    intro a idx hj hidx
    obtain ⟨m, hm⟩ : ∃ m, a.length = m + 1 :=
      ⟨a.length - 1, (Nat.succ_pred_eq_of_pos (lt_of_lt_of_le (Nat.succ_pos j) hj)).symm⟩
    have hjm : j ≤ m := by omega
    have hbpos : 0 < (a.length - 1).descFactorial j := by
      rw [hm]; simpa using descFactorial_pos hjm
    have hidx2 : idx < (m + 1) * m.descFactorial j := by
      rw [hm, Nat.succ_descFactorial_succ] at hidx; exact hidx
    have hp : idx / (a.length - 1).descFactorial j < a.length := by
      rw [hm]
      simp only [Nat.add_sub_cancel]
      exact (Nat.div_lt_iff_lt_mul (descFactorial_pos hjm)).mpr hidx2
    rw [unrankNat_step a j idx hp]
    have hlen : (a.eraseIdx (idx / (a.length - 1).descFactorial j)).length = m := by
      rw [List.length_eraseIdx_of_lt hp, hm]; rfl
    have hrec := ih (a.eraseIdx (idx / (a.length - 1).descFactorial j))
      (idx % (a.length - 1).descFactorial j)
      (by rw [hlen]; exact hjm)
      (by rw [hlen]
          have hbeq : (a.length - 1).descFactorial j = m.descFactorial j := by rw [hm]; simp
          rw [← hbeq]
          exact Nat.mod_lt _ hbpos)
    exact ⟨by simp [hrec.1], cons_subperm_of_subperm_eraseIdx hp hrec.2⟩

theorem unrankNat_cons {T : Type} (a : List T) (j idx : ℕ) (x : T)
    (hx : a.get? (idx / (a.length - 1).descFactorial j) = some x) :
    unrankNat a (j + 1) idx =
      x :: unrankNat (a.eraseIdx (idx / (a.length - 1).descFactorial j)) j
        (idx % (a.length - 1).descFactorial j) := by
  simp only [unrankNat, hx]

theorem rankNat_lt {T : Type} [DecidableEq T] :
    ∀ (L a : List T), L.Nodup → (∀ x ∈ L, x ∈ a) →
      rankNat a L < a.length.descFactorial L.length := by
  intro L
  induction L with
  | nil => intro a _ _; simp [rankNat]
  | cons x L ih =>
    intro a hnd hsub
    have hx : x ∈ a := hsub x (List.mem_cons_self x L)
    obtain ⟨m, hm⟩ : ∃ m, a.length = m + 1 :=
      ⟨a.length - 1, (Nat.succ_pred_eq_of_pos (List.length_pos_of_mem hx)).symm⟩
    have hq : a.indexOf x < a.length := List.indexOf_lt_length.mpr hx
    have herase : (a.erase x).length = m := by
      rw [List.length_erase_of_mem hx, hm]; rfl
    have hsub2 : ∀ y ∈ L, y ∈ a.erase x := by
      intro y hy
      have hne : y ≠ x := by
        intro h; subst h; exact (List.nodup_cons.mp hnd).1 hy
      exact (List.mem_erase_of_ne hne).mpr (hsub y (List.mem_cons_of_mem x hy))
    have hr := ih (a.erase x) (List.nodup_cons.mp hnd).2 hsub2
    rw [herase] at hr
    have hb : (a.length - 1).descFactorial L.length = m.descFactorial L.length := by
      rw [hm]; rfl
    show a.indexOf x * ((a.length - 1).descFactorial L.length) + rankNat (a.erase x) L <
      a.length.descFactorial (L.length + 1)
    rw [hb, hm, Nat.succ_descFactorial_succ]
    have h1 : a.indexOf x * m.descFactorial L.length + rankNat (a.erase x) L <
        (a.indexOf x + 1) * m.descFactorial L.length := by
      rw [Nat.succ_mul]
      omega
    have h2 : (a.indexOf x + 1) * m.descFactorial L.length ≤
        (m + 1) * m.descFactorial L.length := by
      apply Nat.mul_le_mul_right
      rw [hm] at hq
      omega
    omega

theorem unrankNat_rankNat {T : Type} [DecidableEq T] :
    ∀ (L a : List T), L.Nodup → (∀ x ∈ L, x ∈ a) →
      unrankNat a L.length (rankNat a L) = L := by
  intro L
  induction L with
  | nil => intro a _ _; rfl
  | cons x L ih =>
    intro a hnd hsub
    have hx : x ∈ a := hsub x (List.mem_cons_self x L)
    have hq : a.indexOf x < a.length := List.indexOf_lt_length.mpr hx
    have herase : (a.erase x).length = a.length - 1 := List.length_erase_of_mem hx
    have hsub2 : ∀ y ∈ L, y ∈ a.erase x := by
      intro y hy
      have hne : y ≠ x := by
        intro h; subst h; exact (List.nodup_cons.mp hnd).1 hy
      exact (List.mem_erase_of_ne hne).mpr (hsub y (List.mem_cons_of_mem x hy))
    have hndL : L.Nodup := (List.nodup_cons.mp hnd).2
    have hLlen : L.length ≤ (a.erase x).length :=
      (List.subperm_of_subset hndL hsub2).length_le
    have hbpos : 0 < (a.length - 1).descFactorial L.length := by
      rw [← herase]; exact descFactorial_pos hLlen
    have hr : rankNat (a.erase x) L < (a.length - 1).descFactorial L.length := by
      rw [← herase]; exact rankNat_lt L (a.erase x) hndL hsub2
    show unrankNat a (L.length + 1)
      (a.indexOf x * ((a.length - 1).descFactorial L.length) + rankNat (a.erase x) L) = x :: L
    set b := (a.length - 1).descFactorial L.length with hbdef
    set q := a.indexOf x with hqdef
    set r := rankNat (a.erase x) L with hrdef
    have hdiv : (q * b + r) / b = q := by
      rw [Nat.add_comm, Nat.mul_comm, Nat.add_mul_div_left _ _ hbpos, Nat.div_eq_of_lt hr, Nat.zero_add]
    have hmod : (q * b + r) % b = r := by
      rw [Nat.add_comm, Nat.mul_comm, Nat.add_mul_mod_self_left, Nat.mod_eq_of_lt hr]
    have hget : a.get? ((q * b + r) / b) = some x := by
      rw [hdiv]; exact List.indexOf_get? hx
    rw [unrankNat_cons a L.length (q * b + r) x hget, hdiv, hmod,
      List.eraseIdx_indexOf_eq_erase, ih (a.erase x) hndL hsub2]

theorem rankNat_unrankNat {T : Type} [DecidableEq T] :
    ∀ (j : ℕ) (a : List T) (idx : ℕ), a.Nodup → j ≤ a.length →
      idx < a.length.descFactorial j → rankNat a (unrankNat a j idx) = idx := by
  intro j
  induction j with
  | zero =>
    intro a idx _ _ hidx
    simp only [Nat.descFactorial_zero, Nat.lt_one_iff] at hidx
    subst hidx; rfl
  | succ j ih =>
    intro a idx hnd hj hidx
    obtain ⟨m, hm⟩ : ∃ m, a.length = m + 1 :=
      ⟨a.length - 1, (Nat.succ_pred_eq_of_pos (lt_of_lt_of_le (Nat.succ_pos j) hj)).symm⟩
    have hjm : j ≤ m := by omega
    have hb : (a.length - 1).descFactorial j = m.descFactorial j := by rw [hm]; rfl
    have hbpos : 0 < (a.length - 1).descFactorial j := by rw [hb]; exact descFactorial_pos hjm
    have hidx2 : idx < (m + 1) * m.descFactorial j := by
      rw [hm, Nat.succ_descFactorial_succ] at hidx; exact hidx
    have hp : idx / (a.length - 1).descFactorial j < a.length := by
      rw [hm]
      simp only [Nat.add_sub_cancel]
      exact (Nat.div_lt_iff_lt_mul (descFactorial_pos hjm)).mpr hidx2
    have hget : a.get? (idx / (a.length - 1).descFactorial j) =
        some (a.get ⟨idx / (a.length - 1).descFactorial j, hp⟩) :=
      List.get?_eq_get hp
    rw [unrankNat_cons a j idx _ hget]
    set p := idx / (a.length - 1).descFactorial j with hpdef
    set x := a.get ⟨p, hp⟩ with hxdef
    have hlen : (a.eraseIdx p).length = m := by
      rw [List.length_eraseIdx_of_lt hp, hm]; rfl
    have hmodlt : idx % (a.length - 1).descFactorial j < (a.eraseIdx p).length.descFactorial j := by
      rw [hlen, ← hb]; exact Nat.mod_lt _ hbpos
    have hLlen : (unrankNat (a.eraseIdx p) j (idx % (a.length - 1).descFactorial j)).length = j :=
      (unrankNat_length_subperm j (a.eraseIdx p) _ (by rw [hlen]; exact hjm) hmodlt).1
    have hidxOf : a.indexOf x = p := by
      rw [hxdef, List.get_eq_getElem]
      exact List.indexOf_getElem hnd p hp
    have herase : a.erase x = a.eraseIdx p := by
      rw [← List.eraseIdx_indexOf_eq_erase, hidxOf]
    show a.indexOf x * ((a.length - 1).descFactorial
        (unrankNat (a.eraseIdx p) j (idx % (a.length - 1).descFactorial j)).length) +
      rankNat (a.erase x) (unrankNat (a.eraseIdx p) j (idx % (a.length - 1).descFactorial j)) = idx
    rw [hLlen, hidxOf, herase,
      ih (a.eraseIdx p) (idx % (a.length - 1).descFactorial j)
        (List.Nodup.sublist (List.eraseIdx_sublist a p) hnd)
        (by rw [hlen]; exact hjm) hmodlt]
    rw [Nat.mul_comm]
    exact Nat.div_add_mod idx _

theorem map_eraseIdx {T U : Type} (g : T → U) :
    ∀ (a : List T) (p : ℕ), (a.eraseIdx p).map g = (a.map g).eraseIdx p := by
  intro a
  induction a with
  | nil => intro p; rfl
  | cons x xs ih =>
    intro p
    cases p with
    | zero => rfl
    | succ p => simp only [List.eraseIdx_cons_succ, List.map_cons, ih]

theorem unrankNat_map {T U : Type} (g : T → U) :
    ∀ (j : ℕ) (a : List T) (idx : ℕ),
      unrankNat (a.map g) j idx = (unrankNat a j idx).map g := by
  intro j
  induction j with
  | zero => intro a idx; rfl
  | succ j ih =>
    intro a idx
    simp only [unrankNat, List.length_map, List.get?_map]
    cases hx : a.get? (idx / (a.length - 1).descFactorial j) with
    | none => rfl
    | some x => simp only [Option.map_some', ← map_eraseIdx, ih, List.map_cons]

theorem denseLoop_eq_unrankNat {T : Type} (n k : ℕ) :
    ∀ (fuel i : ℕ) (index : ℤ) (a : List T), i + fuel = k → k ≤ n → a.length = n - i →
      0 ≤ index → index < (((n - i).descFactorial (k - i) : ℕ) : ℤ) →
      denseLoop n k i fuel index a = Except.ok (unrankNat a fuel index.toNat) := by
  intro fuel
  induction fuel with
  | zero => intro i index a _ _ _ _ _; rfl
  | succ fuel ih =>
    intro i index a hik hkn hlen h0 hub
    have hik2 : i < k := by omega
    have hin : i < n := by omega
    set m := index.toNat with hmdef
    have hmi : (m : ℤ) = index := Int.toNat_of_nonneg h0
    set b : ℕ := (n - i - 1).descFactorial (k - i - 1) with hbdef
    have hblock : permutationCountBig (n - i - 1) (k - i - 1) = (b : ℤ) :=
      permutationCountBig_eq_descFactorial _ _
    have hbe : (a.length - 1).descFactorial fuel = b := by
      rw [hlen, hbdef]
      congr 1
      omega
    have hbpos : 0 < b := by
      rw [hbdef]
      exact descFactorial_pos (by omega)
    have hmub : m < (n - i).descFactorial (k - i) := by
      rw [← hmi] at hub
      exact_mod_cast hub
    have hmub2 : m < (n - i) * b := by
      have h1 : n - i = (n - i - 1) + 1 := by omega
      have h2 : k - i = (k - i - 1) + 1 := by omega
      rw [h1, h2, Nat.succ_descFactorial_succ] at hmub
      rw [h1]
      exact hmub
    have hp : m / b < a.length := by
      rw [hlen]
      exact (Nat.div_lt_iff_lt_mul hbpos).mpr hmub2
    have htdiv : (Int.tdiv index (b : ℤ)).toNat = m / b := by
      rw [← hmi, ← Int.ofNat_tdiv]
      exact Int.toNat_ofNat _
    have htmod : Int.tmod index (b : ℤ) = ((m % b : ℕ) : ℤ) := by
      rw [← hmi]
      exact (Int.ofNat_tmod _ _).symm
    have hget : a.get? (m / b) = some (a.get ⟨m / b, hp⟩) := List.get?_eq_get hp
    have hgetE : a.get? ((Int.tdiv index (b : ℤ)).toNat) = some (a.get ⟨m / b, hp⟩) := by
      rw [htdiv]; exact hget
    have herlen : (a.eraseIdx (m / b)).length = n - (i + 1) := by
      rw [List.length_eraseIdx_of_lt hp, hlen]
      omega
    have hrec := ih (i + 1) (Int.tmod index (b : ℤ)) (a.eraseIdx (m / b))
      (by omega) hkn herlen
      (by rw [htmod]; exact Int.ofNat_nonneg _)
      (by rw [htmod]
          have hlt : m % b < b := Nat.mod_lt _ hbpos
          have hbb : (n - (i + 1)).descFactorial (k - (i + 1)) = b := by
            rw [hbdef]
            congr 1
          rw [hbb]
          exact_mod_cast hlt)
    have hcons : unrankNat a (fuel + 1) m =
        a.get ⟨m / b, hp⟩ :: unrankNat (a.eraseIdx (m / b)) fuel (m % b) := by
      have hc := unrankNat_cons a fuel m (a.get ⟨m / b, hp⟩) (by rw [hbe]; exact hget)
      rw [hbe] at hc
      exact hc
    have hmodtn : (Int.tmod index (b : ℤ)).toNat = m % b := by
      rw [htmod]; exact Int.toNat_ofNat _
    simp only [denseLoop, hblock, hgetE, htdiv, hget, hrec, Except.map]
    rw [hcons, hmodtn]

theorem lazyLoop_eq_unrankNat {T : Type} (f : ℕ → T) (n k : ℕ) :
    ∀ (fuel i : ℕ) (index : ℤ) (ids : List ℕ), ids.Nodup → i + fuel = k → k ≤ n →
      ids.length = n - i → 0 ≤ index → index < (((n - i).descFactorial (k - i) : ℕ) : ℤ) →
      lazyLoop f n k i fuel index ids =
        Except.ok ((unrankNat ids fuel index.toNat).map f) := by
  intro fuel
  induction fuel with
  | zero => intro i index ids _ _ _ _ _ _; rfl
  | succ fuel ih =>
    intro i index ids hnd hik hkn hlen h0 hub
    have hik2 : i < k := by omega
    have hin : i < n := by omega
    set m := index.toNat with hmdef
    have hmi : (m : ℤ) = index := Int.toNat_of_nonneg h0
    set b : ℕ := (n - i - 1).descFactorial (k - i - 1) with hbdef
    have hblock : permutationCountBig (n - i - 1) (k - i - 1) = (b : ℤ) :=
      permutationCountBig_eq_descFactorial _ _
    have hbe : (ids.length - 1).descFactorial fuel = b := by
      rw [hlen, hbdef]
      congr 1
      omega
    have hbpos : 0 < b := by
      rw [hbdef]
      exact descFactorial_pos (by omega)
    have hmub : m < (n - i).descFactorial (k - i) := by
      rw [← hmi] at hub
      exact_mod_cast hub
    have hmub2 : m < (n - i) * b := by
      have h1 : n - i = (n - i - 1) + 1 := by omega
      have h2 : k - i = (k - i - 1) + 1 := by omega
      rw [h1, h2, Nat.succ_descFactorial_succ] at hmub
      rw [h1]
      exact hmub
    have hp : m / b < ids.length := by
      rw [hlen]
      exact (Nat.div_lt_iff_lt_mul hbpos).mpr hmub2
    have htdiv : (Int.tdiv index (b : ℤ)).toNat = m / b := by
      rw [← hmi, ← Int.ofNat_tdiv]
      exact Int.toNat_ofNat _
    have htmod : Int.tmod index (b : ℤ) = ((m % b : ℕ) : ℤ) := by
      rw [← hmi]
      exact (Int.ofNat_tmod _ _).symm
    have hget : ids.get? (m / b) = some (ids.get ⟨m / b, hp⟩) := List.get?_eq_get hp
    have hgetE : ids.get? ((Int.tdiv index (b : ℤ)).toNat) = some (ids.get ⟨m / b, hp⟩) := by
      rw [htdiv]; exact hget
    have herase : ids.erase (ids.get ⟨m / b, hp⟩) = ids.eraseIdx (m / b) := by
      rw [← List.eraseIdx_indexOf_eq_erase]
      congr 1
      rw [List.get_eq_getElem]
      exact List.indexOf_getElem hnd _ hp
    have herlen : (ids.eraseIdx (m / b)).length = n - (i + 1) := by
      rw [List.length_eraseIdx_of_lt hp, hlen]
      omega
    have hrec := ih (i + 1) (Int.tmod index (b : ℤ)) (ids.eraseIdx (m / b))
      (List.Nodup.sublist (List.eraseIdx_sublist ids (m / b)) hnd)
      (by omega) hkn herlen
      (by rw [htmod]; exact Int.ofNat_nonneg _)
      (by rw [htmod]
          have hlt : m % b < b := Nat.mod_lt _ hbpos
          have hbb : (n - (i + 1)).descFactorial (k - (i + 1)) = b := by
            rw [hbdef]
            congr 1
          rw [hbb]
          exact_mod_cast hlt)
    have hcons : unrankNat ids (fuel + 1) m =
        ids.get ⟨m / b, hp⟩ :: unrankNat (ids.eraseIdx (m / b)) fuel (m % b) := by
      have hc := unrankNat_cons ids fuel m (ids.get ⟨m / b, hp⟩) (by rw [hbe]; exact hget)
      rw [hbe] at hc
      exact hc
    have hmodtn : (Int.tmod index (b : ℤ)).toNat = m % b := by
      rw [htmod]; exact Int.toNat_ofNat _
    simp only [lazyLoop, hblock, hgetE, htdiv, hget, herase, hrec, Except.map]
    rw [hcons, hmodtn]
    rfl

theorem getLargeKPermutationAtIndex_ok {T : Type} (U : List T) (k : ℕ) (index : ℤ)
    (hk : k ≤ U.length) (h0 : 0 ≤ index)
    (hub : index < ((U.length.descFactorial k : ℕ) : ℤ)) :
    getLargeKPermutationAtIndex U k index = Except.ok (unrankNat U k index.toNat) := by
  unfold getLargeKPermutationAtIndex
  rw [if_neg (not_lt.mpr hk), permutationCountBig_eq_descFactorial,
    if_neg (by push_neg; exact ⟨h0, hub⟩)]
  exact denseLoop_eq_unrankNat U.length k k 0 index U (Nat.zero_add k) hk
    (Nat.sub_zero U.length).symm h0
    (by rw [Nat.sub_zero, Nat.sub_zero]; exact hub)

theorem getKPermutationForLargeDataset_ok {T : Type} (f : ℕ → T) (n k : ℕ) (index : ℤ)
    (hk : k ≤ n) (h0 : 0 ≤ index) (hub : index < ((n.descFactorial k : ℕ) : ℤ)) :
    getKPermutationForLargeDataset f n k index =
      Except.ok ((unrankNat (List.range n) k index.toNat).map f) := by
  unfold getKPermutationForLargeDataset
  rw [if_neg (not_lt.mpr hk), permutationCountBig_eq_descFactorial,
    if_neg (by push_neg; exact ⟨h0, hub⟩)]
  exact lazyLoop_eq_unrankNat f n k k 0 index (List.range n) (List.nodup_range n)
    (Nat.zero_add k) hk (by rw [List.length_range, Nat.sub_zero]) h0
    (by rw [Nat.sub_zero, Nat.sub_zero]; exact hub)

theorem getLargeKPermutationAtIndex_arity {T : Type} (U : List T) (k : ℕ) (index : ℤ)
    (h : U.length < k) :
    getLargeKPermutationAtIndex U k index = Except.error (PermError.arity k U.length) := by
  unfold getLargeKPermutationAtIndex
  rw [if_pos h]

theorem getKPermutationForLargeDataset_arity {T : Type} (f : ℕ → T) (n k : ℕ) (index : ℤ)
    (h : n < k) :
    getKPermutationForLargeDataset f n k index = Except.error (PermError.arity k n) := by
  unfold getKPermutationForLargeDataset
  rw [if_pos h]

theorem getLargeKPermutationAtIndex_range {T : Type} (U : List T) (k : ℕ) (index : ℤ)
    (hk : k ≤ U.length) (h : index < 0 ∨ index ≥ permutationCountBig U.length k) :
    getLargeKPermutationAtIndex U k index =
      Except.error (PermError.range index (permutationCountBig U.length k - 1)) := by
  unfold getLargeKPermutationAtIndex
  rw [if_neg (not_lt.mpr hk), if_pos h]

theorem getKPermutationForLargeDataset_range {T : Type} (f : ℕ → T) (n k : ℕ) (index : ℤ)
    (hk : k ≤ n) (h : index < 0 ∨ index ≥ permutationCountBig n k) :
    getKPermutationForLargeDataset f n k index =
      Except.error (PermError.range index (permutationCountBig n k - 1)) := by
  unfold getKPermutationForLargeDataset
  rw [if_neg (not_lt.mpr hk), if_pos h]

theorem unrankNat_zero {T : Type} :
    ∀ (j : ℕ) (a : List T), j ≤ a.length → unrankNat a j 0 = a.take j := by
  intro j
  induction j with
  | zero => intro a _; rfl
  | succ j ih =>
    intro a hj
    cases a with
    | nil => simp at hj
    | cons x xs =>
      simp only [unrankNat, Nat.zero_div, Nat.zero_mod, List.get?_eq_getElem?,
        List.getElem?_cons_zero, List.eraseIdx_cons_zero, List.take_succ_cons]
      rw [ih xs (by simpa using hj)]

/-! ### The claims -/

/-- C1: for every `n ≥ 0` and `k ≥ 0`, `permutationCountBig(n, k)` returns
exactly the falling-factorial product `n·(n-1)·…·(n-k+1)` (as an exact
integer) when `0 < k ≤ n`, exactly `0` when `k > n`, and exactly `1` when
`k = 0`. -/
theorem permutationCountBig_correct (n k : ℕ) :
    (0 < k → k ≤ n → permutationCountBig n k = ∏ j ∈ Finset.range k, ((n : ℤ) - (j : ℤ))) ∧
    (n < k → permutationCountBig n k = 0) ∧
    (k = 0 → permutationCountBig n k = 1) := by
  refine ⟨?_, ?_, ?_⟩
  · intro hk hkn
    unfold permutationCountBig
    rw [if_neg (not_lt.mpr hkn), if_neg (Nat.pos_iff_ne_zero.mp hk), permCount_foldl, one_mul]
  · intro h
    unfold permutationCountBig
    rw [if_pos h]
  · intro h
    subst h
    unfold permutationCountBig
    rw [if_neg (by omega), if_pos rfl]

/-- Witness for C1 at `(n,k) = (4,2)`, `(2,3)` and `(5,0)`. -/
theorem permutationCountBig_correct_witness :
    permutationCountBig 4 2 = ∏ j ∈ Finset.range 2, ((4 : ℤ) - (j : ℤ)) ∧
    permutationCountBig 2 3 = 0 ∧ permutationCountBig 5 0 = 1 :=
  ⟨(permutationCountBig_correct 4 2).1 (by decide) (by decide),
   (permutationCountBig_correct 2 3).2.1 (by decide),
   (permutationCountBig_correct 5 0).2.2 rfl⟩

/-- C10: under the preconditions `0 ≤ k ≤ n`, the per-position block size
`permutationCountBig (n-i-1) (k-i-1)` is at least `1` for every
`i ∈ [0, k)`, so the big-integer division and modulo by `blockSize`
never divide by zero. -/
theorem blockSize_positive (n k i : ℕ) (hk : k ≤ n) (hi : i < k) :
    1 ≤ permutationCountBig (n - i - 1) (k - i - 1) := by
  rw [permutationCountBig_eq_descFactorial]
  exact_mod_cast descFactorial_pos (by omega : k - i - 1 ≤ n - i - 1)

/-- Witness for C10 at `n = 4`, `k = 2`, `i = 0`. -/
theorem blockSize_positive_witness : 1 ≤ permutationCountBig 3 1 :=
  blockSize_positive 4 2 0 (by decide) (by decide)

/-- C9: the lazy engine's internal-invariant-violation branch
(`Algorithm error: could not find element at position …`) is unreachable:
no call to `getKPermutationForLargeDataset` ever returns it (in
particular none with valid preconditions, which are checked internally). -/
theorem lazy_no_algorithm_error {T : Type} (f : ℕ → T) (n k : ℕ) (index : ℤ) (p : ℕ) :
    getKPermutationForLargeDataset f n k index ≠
      Except.error (PermError.algorithmError p) := by
  by_cases hk : n < k
  · rw [getKPermutationForLargeDataset_arity f n k index hk]
    simp
  · by_cases hr : index < 0 ∨ index ≥ permutationCountBig n k
    · rw [getKPermutationForLargeDataset_range f n k index (le_of_not_lt hk) hr]
      simp
    · push_neg at hr
      rw [getKPermutationForLargeDataset_ok f n k index (le_of_not_lt hk) hr.1
        (by rw [← permutationCountBig_eq_descFactorial]; exact hr.2)]
      simp

/-- C6: for universe `["a","b","c","d"]` and `k = 2`:
`permutationCountBig 4 2 = 12`, and the dense engine returns `["a","b"]`
at index 0, `["a","c"]` at index 1, `["b","a"]` at index 3 and
`["d","c"]` at index 11; in general, for every universe and `k ≤ n`,
index 0 yields the first `k` elements of the universe in order. -/
theorem dense_concrete_scenario :
    permutationCountBig 4 2 = 12 ∧
    getLargeKPermutationAtIndex ["a", "b", "c", "d"] 2 0 = Except.ok ["a", "b"] ∧
    getLargeKPermutationAtIndex ["a", "b", "c", "d"] 2 1 = Except.ok ["a", "c"] ∧
    getLargeKPermutationAtIndex ["a", "b", "c", "d"] 2 3 = Except.ok ["b", "a"] ∧
    getLargeKPermutationAtIndex ["a", "b", "c", "d"] 2 11 = Except.ok ["d", "c"] ∧
    ∀ (T : Type) (U : List T) (k : ℕ), k ≤ U.length →
      getLargeKPermutationAtIndex U k 0 = Except.ok (U.take k) := by
  refine ⟨rfl, rfl, rfl, rfl, rfl, ?_⟩
  intro T U k hk
  rw [getLargeKPermutationAtIndex_ok U k 0 hk le_rfl
    (by exact_mod_cast descFactorial_pos hk)]
  rw [Int.toNat_zero, unrankNat_zero k U hk]

/-- Witness for C6's universally quantified part at `U = [10, 20, 30]`,
`k = 2`. -/
theorem dense_concrete_scenario_witness :
    getLargeKPermutationAtIndex [10, 20, 30] 2 0 = Except.ok [10, 20] :=
  dense_concrete_scenario.2.2.2.2.2 ℕ [10, 20, 30] 2 (by decide)

/-- C3: for every resolver `f`, size `n`, arity `k` and index, the lazy
engine agrees with the dense engine run on the materialized universe
`[f 0, …, f (n-1)]`, element for element (and also on every error):
the lazy working set, traversed in ascending identity order, selects
exactly the elements the dense engine selects. -/
theorem lazy_dense_agree {T : Type} (f : ℕ → T) (n k : ℕ) (index : ℤ) :
    getKPermutationForLargeDataset f n k index =
      getLargeKPermutationAtIndex ((List.range n).map f) k index := by
  have hlen : ((List.range n).map f).length = n := by
    rw [List.length_map, List.length_range]
  by_cases hk : n < k
  · rw [getKPermutationForLargeDataset_arity f n k index hk,
      getLargeKPermutationAtIndex_arity ((List.range n).map f) k index (by rw [hlen]; exact hk),
      hlen]
  · by_cases hr : index < 0 ∨ index ≥ permutationCountBig n k
    · rw [getKPermutationForLargeDataset_range f n k index (le_of_not_lt hk) hr,
        getLargeKPermutationAtIndex_range ((List.range n).map f) k index
          (by rw [hlen]; exact le_of_not_lt hk) (by rw [hlen]; exact hr), hlen]
    · push_neg at hr
      have hub : index < ((n.descFactorial k : ℕ) : ℤ) := by
        rw [← permutationCountBig_eq_descFactorial]
        exact hr.2
      rw [getKPermutationForLargeDataset_ok f n k index (le_of_not_lt hk) hr.1 hub,
        getLargeKPermutationAtIndex_ok ((List.range n).map f) k index
          (by rw [hlen]; exact le_of_not_lt hk) hr.1 (by rw [hlen]; exact hub),
        unrankNat_map]

/-- C4: each engine raises the arity error exactly when `k > n` (with
`n` the universe length for the dense engine and the `n` argument for
the lazy one); given `k ≤ n` it raises the out-of-range error — whose
payload reports the valid upper bound `permutationCountBig n k - 1` —
exactly when `index < 0` or `index ≥ permutationCountBig n k`; and for
in-range inputs with `k ≤ n` it raises no error at all. -/
theorem error_conditions {T : Type} (U : List T) (f : ℕ → T) (n k : ℕ) (index : ℤ) :
    (getLargeKPermutationAtIndex U k index = Except.error (PermError.arity k U.length) ↔
      U.length < k) ∧
    (k ≤ U.length →
      (getLargeKPermutationAtIndex U k index =
          Except.error (PermError.range index (permutationCountBig U.length k - 1)) ↔
        (index < 0 ∨ index ≥ permutationCountBig U.length k))) ∧
    (k ≤ U.length → 0 ≤ index → index < permutationCountBig U.length k →
      ∃ L, getLargeKPermutationAtIndex U k index = Except.ok L) ∧
    (getKPermutationForLargeDataset f n k index = Except.error (PermError.arity k n) ↔
      n < k) ∧
    (k ≤ n →
      (getKPermutationForLargeDataset f n k index =
          Except.error (PermError.range index (permutationCountBig n k - 1)) ↔
        (index < 0 ∨ index ≥ permutationCountBig n k))) ∧
    (k ≤ n → 0 ≤ index → index < permutationCountBig n k →
      ∃ L, getKPermutationForLargeDataset f n k index = Except.ok L) := by
  refine ⟨⟨?_, getLargeKPermutationAtIndex_arity U k index⟩, ?_, ?_,
    ⟨?_, getKPermutationForLargeDataset_arity f n k index⟩, ?_, ?_⟩
  · intro h
    by_contra hk
    push_neg at hk
    by_cases hr : index < 0 ∨ index ≥ permutationCountBig U.length k
    · rw [getLargeKPermutationAtIndex_range U k index hk hr] at h
      simp at h
    · push_neg at hr
      rw [getLargeKPermutationAtIndex_ok U k index hk hr.1
        (by rw [← permutationCountBig_eq_descFactorial]; exact hr.2)] at h
      simp at h
  · intro hk
    constructor
    · intro h
      by_contra hr
      push_neg at hr
      rw [getLargeKPermutationAtIndex_ok U k index hk hr.1
        (by rw [← permutationCountBig_eq_descFactorial]; exact hr.2)] at h
      simp at h
    · exact getLargeKPermutationAtIndex_range U k index hk
  · intro hk h0 hub
    exact ⟨_, getLargeKPermutationAtIndex_ok U k index hk h0
      (by rw [← permutationCountBig_eq_descFactorial]; exact hub)⟩
  · intro h
    by_contra hk
    push_neg at hk
    by_cases hr : index < 0 ∨ index ≥ permutationCountBig n k
    · rw [getKPermutationForLargeDataset_range f n k index hk hr] at h
      simp at h
    · push_neg at hr
      rw [getKPermutationForLargeDataset_ok f n k index hk hr.1
        (by rw [← permutationCountBig_eq_descFactorial]; exact hr.2)] at h
      simp at h
  · intro hk
    constructor
    · intro h
      by_contra hr
      push_neg at hr
      rw [getKPermutationForLargeDataset_ok f n k index hk hr.1
        (by rw [← permutationCountBig_eq_descFactorial]; exact hr.2)] at h
      simp at h
    · exact getKPermutationForLargeDataset_range f n k index hk
  · intro hk h0 hub
    exact ⟨_, getKPermutationForLargeDataset_ok f n k index hk h0
      (by rw [← permutationCountBig_eq_descFactorial]; exact hub)⟩

/-- Witness for C4: the dense engine on a 2-element universe with
`k = 1` rejects index 5 with the range error reporting upper bound 1,
and the lazy engine raises the arity error for `k = 3 > n = 2`. -/
theorem error_conditions_witness :
    getLargeKPermutationAtIndex [10, 20] 1 5 = Except.error (PermError.range 5 1) ∧
    getKPermutationForLargeDataset (fun i => i) 2 3 0 = Except.error (PermError.arity 3 2) := by
  constructor
  · have h := ((error_conditions [10, 20] (fun i => i) 2 1 5).2.1 (by decide)).mpr
      (by decide)
    exact h
  · exact (error_conditions ([] : List ℕ) (fun i => i) 2 3 0).2.2.2.1.mpr (by decide)

theorem denseRunLoop_succ {T : Type} (n k : ℕ) :
    ∀ (fuel j : ℕ) (s : DenseState T),
      denseRunLoop n k j (fuel + 1) s = denseIter n k (j + fuel) (denseRunLoop n k j fuel s) := by
  intro fuel
  induction fuel with
  | zero => intro j s; rfl
  | succ fuel ih =>
    intro j s
    show denseRunLoop n k (j + 1) (fuel + 1) (denseIter n k j s) = _
    rw [ih (j + 1) (denseIter n k j s)]
    have harg : j + 1 + fuel = j + (fuel + 1) := by omega
    rw [harg]
    rfl

theorem position_toNat_lt (n k i : ℕ) (idx : ℤ) (hik : i < k) (hkn : k ≤ n)
    (h0 : 0 ≤ idx) (hub : idx < (((n - i).descFactorial (k - i) : ℕ) : ℤ)) :
    (Int.tdiv idx (permutationCountBig (n - i - 1) (k - i - 1))).toNat < n - i := by
  set m := idx.toNat with hmdef
  have hmi : (m : ℤ) = idx := Int.toNat_of_nonneg h0
  set b : ℕ := (n - i - 1).descFactorial (k - i - 1) with hbdef
  have hblock : permutationCountBig (n - i - 1) (k - i - 1) = (b : ℤ) :=
    permutationCountBig_eq_descFactorial _ _
  have hbpos : 0 < b := by
    rw [hbdef]
    exact descFactorial_pos (by omega)
  have hmub : m < (n - i).descFactorial (k - i) := by
    rw [← hmi] at hub
    exact_mod_cast hub
  have hmub2 : m < (n - i) * b := by
    have h1 : n - i = (n - i - 1) + 1 := by omega
    have h2 : k - i = (k - i - 1) + 1 := by omega
    rw [h1, h2, Nat.succ_descFactorial_succ] at hmub
    rw [h1]
    exact hmub
  have htdiv : (Int.tdiv idx (b : ℤ)).toNat = m / b := by
    rw [← hmi, ← Int.ofNat_tdiv]
    exact Int.toNat_ofNat _
  rw [hblock, htdiv]
  exact (Nat.div_lt_iff_lt_mul hbpos).mpr hmub2

theorem denseRunLoop_bounds {T : Type} (U : List T) (k : ℕ) (index : ℤ)
    (hk : k ≤ U.length) (h0 : 0 ≤ index)
    (hub : index < ((U.length.descFactorial k : ℕ) : ℤ)) :
    ∀ i, i ≤ k →
      0 ≤ (denseRunLoop U.length k 0 i ⟨U, U, [], index⟩).index ∧
      (denseRunLoop U.length k 0 i ⟨U, U, [], index⟩).index <
        (((U.length - i).descFactorial (k - i) : ℕ) : ℤ) ∧
      (denseRunLoop U.length k 0 i ⟨U, U, [], index⟩).availableElements.length =
        U.length - i := by
  intro i
  induction i with
  | zero => intro _; exact ⟨h0, by simpa using hub, rfl⟩
  | succ i ih =>
    intro hik
    obtain ⟨ih0, ihub, ihlen⟩ := ih (by omega)
    have hik2 : i < k := by omega
    have hunroll : denseRunLoop U.length k 0 (i + 1) (⟨U, U, [], index⟩ : DenseState T) =
        denseIter U.length k i (denseRunLoop U.length k 0 i ⟨U, U, [], index⟩) := by
      rw [denseRunLoop_succ U.length k i 0 ⟨U, U, [], index⟩, Nat.zero_add]
    set s := denseRunLoop U.length k 0 i (⟨U, U, [], index⟩ : DenseState T) with hsdef
    set m := s.index.toNat with hmdef
    have hmi : (m : ℤ) = s.index := Int.toNat_of_nonneg ih0
    set b : ℕ := (U.length - i - 1).descFactorial (k - i - 1) with hbdef
    have hblock : permutationCountBig (U.length - i - 1) (k - i - 1) = (b : ℤ) :=
      permutationCountBig_eq_descFactorial _ _
    have hbpos : 0 < b := by
      rw [hbdef]
      exact descFactorial_pos (by omega)
    have hpos : (Int.tdiv s.index (permutationCountBig (U.length - i - 1) (k - i - 1))).toNat <
        U.length - i :=
      position_toNat_lt U.length k i s.index hik2 hk ih0 ihub
    have htmod : Int.tmod s.index (b : ℤ) = ((m % b : ℕ) : ℤ) := by
      rw [← hmi]
      exact (Int.ofNat_tmod _ _).symm
    have hmodlt : m % b < b := Nat.mod_lt _ hbpos
    refine hunroll ▸ ⟨?_, ?_, ?_⟩
    · show 0 ≤ (denseIter U.length k i s).index
      show 0 ≤ Int.tmod s.index (permutationCountBig (U.length - i - 1) (k - i - 1))
      rw [hblock, htmod]
      exact Int.ofNat_nonneg _
    · show (denseIter U.length k i s).index <
        (((U.length - (i + 1)).descFactorial (k - (i + 1)) : ℕ) : ℤ)
      show Int.tmod s.index (permutationCountBig (U.length - i - 1) (k - i - 1)) <
        (((U.length - (i + 1)).descFactorial (k - (i + 1)) : ℕ) : ℤ)
      rw [hblock, htmod]
      have hbb : (U.length - (i + 1)).descFactorial (k - (i + 1)) = b := by
        rw [hbdef]
        congr 1
      rw [hbb]
      exact_mod_cast hmodlt
    · show (denseIter U.length k i s).availableElements.length = U.length - (i + 1)
      show (s.availableElements.eraseIdx
        ((Int.tdiv s.index (permutationCountBig (U.length - i - 1) (k - i - 1))).toNat)).length =
        U.length - (i + 1)
      rw [List.length_eraseIdx_of_lt (by rw [ihlen]; exact hpos), ihlen]
      omega

/-- C5: for inputs satisfying the preconditions, at entry to every
iteration `i ∈ [0, k)` of the dense engine's selection loop the
invariant `index < permutationCountBig (n-i, k-i)` holds (with the index
still nonnegative), the working copy has exactly `n - i` surviving
elements, and therefore `position = index / blockSize`, narrowed to a
machine integer, is strictly below the working-copy length, so the
access and removal at `position` are in bounds. -/
theorem dense_loop_invariant {T : Type} (U : List T) (k : ℕ) (index : ℤ)
    (hk : k ≤ U.length) (h0 : 0 ≤ index)
    (hub : index < permutationCountBig U.length k) (i : ℕ) (hi : i < k) :
    0 ≤ (denseRunLoop U.length k 0 i ⟨U, U, [], index⟩).index ∧
    (denseRunLoop U.length k 0 i ⟨U, U, [], index⟩).index <
      permutationCountBig (U.length - i) (k - i) ∧
    (denseRunLoop U.length k 0 i ⟨U, U, [], index⟩).availableElements.length =
      U.length - i ∧
    (Int.tdiv (denseRunLoop U.length k 0 i ⟨U, U, [], index⟩).index
        (permutationCountBig (U.length - i - 1) (k - i - 1))).toNat <
      (denseRunLoop U.length k 0 i ⟨U, U, [], index⟩).availableElements.length := by
  have hub2 : index < ((U.length.descFactorial k : ℕ) : ℤ) := by
    rw [← permutationCountBig_eq_descFactorial]
    exact hub
  obtain ⟨a0, aub, alen⟩ := denseRunLoop_bounds U k index hk h0 hub2 i (le_of_lt hi)
  refine ⟨a0, ?_, alen, ?_⟩
  · rw [permutationCountBig_eq_descFactorial]
    exact aub
  · rw [alen]
    exact position_toNat_lt U.length k i _ hi hk a0 aub

/-- Witness for C5 at `U = [10, 20, 30]`, `k = 2`, `index = 5`, `i = 1`. -/
theorem dense_loop_invariant_witness :
    0 ≤ (denseRunLoop 3 2 0 1 ⟨[10, 20, 30], [10, 20, 30], [], 5⟩).index ∧
    (denseRunLoop 3 2 0 1 ⟨[10, 20, 30], [10, 20, 30], [], 5⟩).index <
      permutationCountBig (3 - 1) (2 - 1) ∧
    (denseRunLoop 3 2 0 1 ⟨[10, 20, 30], [10, 20, 30], [], 5⟩).availableElements.length =
      3 - 1 ∧
    (Int.tdiv (denseRunLoop 3 2 0 1 ⟨[10, 20, 30], [10, 20, 30], [], 5⟩).index
        (permutationCountBig (3 - 1 - 1) (2 - 1 - 1))).toNat <
      (denseRunLoop 3 2 0 1 ⟨[10, 20, 30], [10, 20, 30], [], 5⟩).availableElements.length :=
  dense_loop_invariant [10, 20, 30] 2 5 (by decide) (by decide) (by decide) 1 (by decide)

theorem denseRunLoop_elements {T : Type} (n k : ℕ) :
    ∀ (fuel j : ℕ) (s : DenseState T),
      (denseRunLoop n k j fuel s).elements = s.elements := by
  intro fuel
  induction fuel with
  | zero => intro j s; rfl
  | succ fuel ih =>
    intro j s
    show (denseRunLoop n k (j + 1) fuel (denseIter n k j s)).elements = s.elements
    rw [ih (j + 1) (denseIter n k j s)]
    rfl

/-- C8: the dense engine never mutates its input universe array — for
every call, returning or raising, the `elements` array observable after
the call equals the input (all removal happens on the per-call working
copy) — and an error can only be raised by the validation phase, before
any element has been selected, so no partial result is observable. -/
theorem dense_engine_frame {T : Type} (U : List T) (k : ℕ) (index : ℤ) :
    (denseRun U k index).2 = U ∧
    (∀ e, (denseRun U k index).1 = Except.error e →
      U.length < k ∨ index < 0 ∨ index ≥ permutationCountBig U.length k) := by
  unfold denseRun
  by_cases hk : k > U.length
  · rw [if_pos hk]
    exact ⟨rfl, fun e _ => Or.inl hk⟩
  · rw [if_neg hk]
    by_cases hr : index < 0 ∨ index ≥ permutationCountBig U.length k
    · rw [if_pos hr]
      exact ⟨rfl, fun e _ => Or.inr hr⟩
    · rw [if_neg hr]
      refine ⟨denseRunLoop_elements U.length k k 0 _, fun e h => ?_⟩
      simp at h

/-- Witness for C8 at `U = [10, 20]`, `k = 3` (arity failure) — the
universe is returned unchanged and the reported error comes from
validation. -/
theorem dense_engine_frame_witness :
    (denseRun [10, 20] 3 0).2 = [10, 20] ∧
    (([10, 20] : List ℕ).length < 3 ∨ (0 : ℤ) < 0 ∨
      (0 : ℤ) ≥ permutationCountBig ([10, 20] : List ℕ).length 3) :=
  ⟨(dense_engine_frame [10, 20] 3 0).1,
   (dense_engine_frame [10, 20] 3 0).2 (PermError.arity 3 2) rfl⟩

theorem subperm_nodup {T : Type} {L a : List T} (h : L.Subperm a) (ha : a.Nodup) :
    L.Nodup := by
  obtain ⟨w, hw, hsub⟩ := h
  exact hw.nodup_iff.mp (List.Nodup.sublist hsub ha)

/-- C7: for inputs satisfying the preconditions, either engine's result
has length exactly `k` and selects each universe position at most once:
the dense result is `ps.map U.get` for a duplicate-free list `ps` of
positions of `U`, and the lazy result is `ids.map f` for a
duplicate-free list `ids` of identities below `n`. -/
theorem result_is_distinct_selection {T : Type} (U : List T) (f : ℕ → T) (n k : ℕ)
    (index : ℤ) :
    (k ≤ U.length → 0 ≤ index → index < permutationCountBig U.length k →
      ∃ (L : List T) (ps : List (Fin U.length)),
        getLargeKPermutationAtIndex U k index = Except.ok L ∧ L.length = k ∧
        ps.Nodup ∧ L = ps.map U.get) ∧
    (k ≤ n → 0 ≤ index → index < permutationCountBig n k →
      ∃ (L : List T) (ids : List ℕ),
        getKPermutationForLargeDataset f n k index = Except.ok L ∧ L.length = k ∧
        ids.Nodup ∧ (∀ j ∈ ids, j < n) ∧ L = ids.map f) := by
  constructor
  · intro hk h0 hub
    have hub2 : index < ((U.length.descFactorial k : ℕ) : ℤ) := by
      rw [← permutationCountBig_eq_descFactorial]
      exact hub
    have hm : index.toNat < U.length.descFactorial k := by
      rw [← Int.toNat_of_nonneg h0] at hub2
      exact_mod_cast hub2
    have hfl : (List.finRange U.length).length = U.length := List.length_finRange _
    obtain ⟨hlen, hsp⟩ := unrankNat_length_subperm k (List.finRange U.length) index.toNat
      (by rw [hfl]; exact hk) (by rw [hfl]; exact hm)
    refine ⟨unrankNat U k index.toNat, unrankNat (List.finRange U.length) k index.toNat,
      getLargeKPermutationAtIndex_ok U k index hk h0 hub2, ?_, ?_, ?_⟩
    · conv_lhs => rw [← List.finRange_map_get U, unrankNat_map]
      rw [List.length_map, hlen]
    · exact subperm_nodup hsp (List.nodup_finRange _)
    · conv_lhs => rw [← List.finRange_map_get U, unrankNat_map]
  · intro hk h0 hub
    have hub2 : index < ((n.descFactorial k : ℕ) : ℤ) := by
      rw [← permutationCountBig_eq_descFactorial]
      exact hub
    have hm : index.toNat < n.descFactorial k := by
      rw [← Int.toNat_of_nonneg h0] at hub2
      exact_mod_cast hub2
    have hrl : (List.range n).length = n := List.length_range n
    obtain ⟨hlen, hsp⟩ := unrankNat_length_subperm k (List.range n) index.toNat
      (by rw [hrl]; exact hk) (by rw [hrl]; exact hm)
    refine ⟨(unrankNat (List.range n) k index.toNat).map f,
      unrankNat (List.range n) k index.toNat,
      getKPermutationForLargeDataset_ok f n k index hk h0 hub2, ?_, ?_, ?_, rfl⟩
    · rw [List.length_map, hlen]
    · exact subperm_nodup hsp (List.nodup_range n)
    · intro j hj
      exact List.mem_range.mp (hsp.subset hj)

/-- Witness for C7 at `U = [10, 20, 30]`, `f = (· * 10)`, `n = 3`,
`k = 2`, `index = 4`. -/
theorem result_is_distinct_selection_witness :
    (∃ (L : List ℕ) (ps : List (Fin ([10, 20, 30] : List ℕ).length)),
      getLargeKPermutationAtIndex [10, 20, 30] 2 4 = Except.ok L ∧ L.length = 2 ∧
      ps.Nodup ∧ L = ps.map ([10, 20, 30] : List ℕ).get) ∧
    (∃ (L : List ℕ) (ids : List ℕ),
      getKPermutationForLargeDataset (fun i => i * 10) 3 2 4 = Except.ok L ∧ L.length = 2 ∧
      ids.Nodup ∧ (∀ j ∈ ids, j < 3) ∧ L = ids.map (fun i => i * 10)) :=
  ⟨(result_is_distinct_selection [10, 20, 30] (fun i => i * 10) 3 2 4).1
      (by decide) (by decide) (by decide),
   (result_is_distinct_selection [10, 20, 30] (fun i => i * 10) 3 2 4).2
      (by decide) (by decide) (by decide)⟩

/-- C2: for a duplicate-free universe `U` and `k ≤ n = U.length`, the map
`index ↦ getLargeKPermutationAtIndex U k index` is a bijection from
`[0, permutationCountBig n k)` onto the ordered k-selections of distinct
elements of `U`: every in-range index produces such a selection,
distinct in-range indices produce distinct selections, and every such
selection is produced by exactly one in-range index. -/
theorem dense_unranking_bijective {T : Type} (U : List T) (hU : U.Nodup) (k : ℕ)
    (hk : k ≤ U.length) :
    (∀ index : ℤ, 0 ≤ index → index < permutationCountBig U.length k →
      ∃ L, getLargeKPermutationAtIndex U k index = Except.ok L ∧
        L.length = k ∧ L.Nodup ∧ ∀ x ∈ L, x ∈ U) ∧
    (∀ i1 i2 : ℤ, 0 ≤ i1 → i1 < permutationCountBig U.length k →
      0 ≤ i2 → i2 < permutationCountBig U.length k →
      getLargeKPermutationAtIndex U k i1 = getLargeKPermutationAtIndex U k i2 →
      i1 = i2) ∧
    (∀ L : List T, L.length = k → L.Nodup → (∀ x ∈ L, x ∈ U) →
      ∃! index : ℤ, 0 ≤ index ∧ index < permutationCountBig U.length k ∧
        getLargeKPermutationAtIndex U k index = Except.ok L) := by
  haveI : DecidableEq T := Classical.decEq T
  have hcast : ∀ index : ℤ, 0 ≤ index → index < permutationCountBig U.length k →
      index.toNat < U.length.descFactorial k := by
    intro index h0 hub
    rw [permutationCountBig_eq_descFactorial] at hub
    rw [← Int.toNat_of_nonneg h0] at hub
    exact_mod_cast hub
  have hok : ∀ index : ℤ, 0 ≤ index → index < permutationCountBig U.length k →
      getLargeKPermutationAtIndex U k index = Except.ok (unrankNat U k index.toNat) := by
    intro index h0 hub
    exact getLargeKPermutationAtIndex_ok U k index hk h0
      (by rw [← permutationCountBig_eq_descFactorial]; exact hub)
  refine ⟨?_, ?_, ?_⟩
  · intro index h0 hub
    obtain ⟨hlen, hsp⟩ := unrankNat_length_subperm k U index.toNat hk (hcast index h0 hub)
    exact ⟨unrankNat U k index.toNat, hok index h0 hub, hlen,
      subperm_nodup hsp hU, fun x hx => hsp.subset hx⟩
  · intro i1 i2 h01 hub1 h02 hub2 heq
    rw [hok i1 h01 hub1, hok i2 h02 hub2] at heq
    have hu : unrankNat U k i1.toNat = unrankNat U k i2.toNat := by
      exact Except.ok.inj heq
    have hr1 := rankNat_unrankNat k U i1.toNat hU hk (hcast i1 h01 hub1)
    have hr2 := rankNat_unrankNat k U i2.toNat hU hk (hcast i2 h02 hub2)
    rw [hu] at hr1
    rw [hr2] at hr1
    rw [← Int.toNat_of_nonneg h01, ← Int.toNat_of_nonneg h02, hr1]
  · intro L hLk hLnd hLsub
    have hrlt : rankNat U L < U.length.descFactorial k := by
      rw [← hLk]
      exact rankNat_lt L U hLnd hLsub
    have hrub : ((rankNat U L : ℕ) : ℤ) < permutationCountBig U.length k := by
      rw [permutationCountBig_eq_descFactorial]
      exact_mod_cast hrlt
    have hres : getLargeKPermutationAtIndex U k ((rankNat U L : ℕ) : ℤ) = Except.ok L := by
      rw [hok _ (Int.ofNat_nonneg _) hrub, Int.toNat_ofNat]
      have := unrankNat_rankNat L U hLnd hLsub
      rw [hLk] at this
      rw [this]
    refine ⟨((rankNat U L : ℕ) : ℤ), ⟨Int.ofNat_nonneg _, hrub, hres⟩, ?_⟩
    intro y ⟨hy0, hyub, hyok⟩
    rw [hok y hy0 hyub] at hyok
    have hyu : unrankNat U k y.toNat = L := Except.ok.inj hyok
    have hry := rankNat_unrankNat k U y.toNat hU hk (hcast y hy0 hyub)
    rw [hyu] at hry
    rw [← Int.toNat_of_nonneg hy0, hry]

/-- Witness for C2 at `U = [10, 20, 30]`, `k = 2`: index 5 is in range
and `[30, 20]` is reached by exactly one index. -/
theorem dense_unranking_bijective_witness :
    (∃ L, getLargeKPermutationAtIndex [10, 20, 30] 2 5 = Except.ok L ∧
      L.length = 2 ∧ L.Nodup ∧ ∀ x ∈ L, x ∈ ([10, 20, 30] : List ℕ)) ∧
    (∃! index : ℤ, 0 ≤ index ∧ index < permutationCountBig ([10, 20, 30] : List ℕ).length 2 ∧
      getLargeKPermutationAtIndex [10, 20, 30] 2 index = Except.ok [30, 20]) :=
  ⟨(dense_unranking_bijective [10, 20, 30] (by decide) 2 (by decide)).1 5
      (by decide) (by decide),
   (dense_unranking_bijective [10, 20, 30] (by decide) 2 (by decide)).2.2 [30, 20]
      (by decide) (by decide) (by decide)⟩
